import Mathlib

/-!
Verification of the biscuit kernel core (src/biscuit/src/kernel/main.go).

Shallow embedding of the data structures and operations the claims touch:
the single-producer/single-consumer circular buffer `circbuf_t`, the process
table operation `proc_new`, the hardware trap stub `trapstub`, the fd pass
queue `passfd_t`, and the console daemon's input buffer logic.

Go `int` fields are embedded as `Int`; Go `uint` ring counters as `Nat`.
Go's `%` on the non-negative operands that occur here agrees with Lean's
`Int.emod` / `Nat.mod`.  Go runtime panics (out-of-range slice bounds,
division by zero, explicit `panic`) are embedded as `none` of an `Option`
result.
-/

/-- Byte buffers (Go `[]uint8`) are lists of `UInt8`. -/
abbrev Buf := List UInt8

/-- Modelled from the spec: the page size; the circular buffer sits in a
single 4 KiB page (`PGSIZE` is defined outside the excerpted file). -/
def PGSIZE : Int := 4096

/-- Modelled from the spec: POSIX `ENOMEM`, "errors are small signed
integers modelled on POSIX". -/
def ENOMEM : Int := 12

/-! ## circbuf_t -/

/-- The circular buffer (`circbuf_t` in main.go).  `buf` is the slice view of
the backing page (`none` = Go nil slice), `head` and `tail` are the monotone
counters, `p_pg` the physical page number of the backing page. -/
structure circbuf_t where
  buf : Option Buf
  bufsz : Int
  head : Int
  tail : Int
  p_pg : Int
deriving DecidableEq

/-- The Go zero value of `circbuf_t`. -/
def cbZero : circbuf_t := ⟨none, 0, 0, 0, 0⟩

/-- `cb_init`: panics (`none`) when `sz <= 0 || sz > bufmax`; otherwise sets
the size and resets the counters.  The backing page stays lazily
unallocated. -/
def cb_init (cb : circbuf_t) (sz : Int) : Option circbuf_t :=
  if sz ≤ 0 ∨ sz > PGSIZE then none
  else some { cb with bufsz := sz, head := 0, tail := 0 }

/-- `cb_init_phys`: install an explicit backing buffer.  (The `refup` call
only touches the external page refcount state, which is not part of the
claims; the recorded `p_pg` field is kept.) -/
def cb_init_phys (cb : circbuf_t) (v : Buf) (p_pg : Int) : circbuf_t :=
  { cb with
    p_pg := p_pg,
    buf := some v,
    bufsz := (v.length : Int),
    head := 0,
    tail := 0 }

/-- `cb_release`: early return when `buf` is nil, otherwise drop the page and
reset the fields (`bufsz` is kept, as in the source). -/
def cb_release (cb : circbuf_t) : circbuf_t :=
  if cb.buf = none then cb
  else { cb with p_pg := 0, buf := none, head := 0, tail := 0 }

/-- Result of `cb_ensure`: the buffer is present, or an error, or a panic. -/
inductive EnsureRes where
  | ok (cb : circbuf_t)
  | err (e : Int) (cb : circbuf_t)
  | panicked
deriving DecidableEq

/-- `cb_ensure`: lazily allocate the backing page.  `fresh` stands for the
outcome of `refpg_new_nozero()`: `none` is allocation failure, otherwise the
(unzeroed) page contents and its page number.  The source then slices the
page to `bufsz` (`bpg[:cb.bufsz]`), which panics when the bound is out of
range. -/
def cb_ensure (fresh : Option (Buf × Int)) (cb : circbuf_t) : EnsureRes :=
  if cb.buf ≠ none then .ok cb
  else if cb.bufsz = 0 then .panicked
  else match fresh with
    | none => .err (-ENOMEM) cb
    | some (pg, p_pg) =>
      if 0 ≤ cb.bufsz ∧ cb.bufsz.toNat ≤ pg.length then
        .ok (cb_init_phys cb (pg.take cb.bufsz.toNat) p_pg)
      else .panicked

/-- `full()`. -/
def circbuf_t.full (cb : circbuf_t) : Bool := cb.head - cb.tail == cb.bufsz

/-- `empty()`. -/
def circbuf_t.empty (cb : circbuf_t) : Bool := cb.head == cb.tail

/-- `left()`. -/
def circbuf_t.left (cb : circbuf_t) : Int := cb.bufsz - (cb.head - cb.tail)

/-- `used()`. -/
def circbuf_t.used (cb : circbuf_t) : Int := cb.head - cb.tail

/-- Go `copy(dst, src)` into the window of `l` starting at `pos`
(`copy(l[pos:...], xs)` with `xs` fitting in the window). -/
def writeAt (l : Buf) (pos : Nat) (xs : Buf) : Buf :=
  l.take pos ++ xs ++ l.drop (pos + xs.length)

/-- `copyin(src)`: the user source is embedded as the byte list a
`fakeubuf_t` carries, whose `uioread(dst)` transfers
`min (len dst) (len src)` bytes and never errors.  Returns
`(n, err, cb', remaining source)`; `none` is a panic. -/
def copyin (fresh : Option (Buf × Int)) (cb0 : circbuf_t) (src : Buf) :
    Option (Int × Int × circbuf_t × Buf) :=
  match cb_ensure fresh cb0 with
  | .panicked => none
  | .err e cb => some (0, e, cb, src)
  | .ok cb =>
    if cb.full then some (0, 0, cb, src)
    else
      let l := cb.buf.getD []
      let hi := (cb.head % cb.bufsz).toNat
      let ti := (cb.tail % cb.bufsz).toNat
      if ti ≤ hi then
        -- dst := cb.buf[hi:]
        let dstlen := l.length - hi
        let wrote := min dstlen src.length
        let l1 := writeAt l hi (src.take wrote)
        let src1 := src.drop wrote
        if wrote ≠ dstlen then
          some ((wrote : Int), 0,
            { cb with buf := some l1, head := cb.head + wrote }, src1)
        else
          let hi2 := ((cb.head + wrote) % cb.bufsz).toNat
          if ti < hi2 then none  -- XXXPANIC "wut?"
          else
            -- dst := cb.buf[hi:ti]
            let wrote2 := min (ti - hi2) src1.length
            let l2 := writeAt l1 hi2 (src1.take wrote2)
            let c := wrote + wrote2
            some ((c : Int), 0,
              { cb with buf := some l2, head := cb.head + c }, src1.drop wrote2)
      else
        -- no wraparound copy; dst := cb.buf[hi:ti]
        let wrote := min (ti - hi) src.length
        let l1 := writeAt l hi (src.take wrote)
        some ((wrote : Int), 0,
          { cb with buf := some l1, head := cb.head + wrote }, src.drop wrote)

/-- Go `src = src[:max]` when `max != 0 && max < len(src)`; slicing with a
negative bound panics. -/
def trimMax (max : Int) (s : Buf) : Option Buf :=
  if max ≠ 0 ∧ max < (s.length : Int) then
    if 0 ≤ max then some (s.take max.toNat) else none
  else some s

/-- `copyout_n(dst, max)`: the user destination is embedded by its remaining
capacity `dstcap`; `uiowrite(src)` transfers `min (len src) cap` bytes and
never errors.  Returns `(n, err, cb', bytes delivered)`; `none` is a
panic. -/
def copyout_n (fresh : Option (Buf × Int)) (cb0 : circbuf_t) (dstcap : Nat)
    (max : Int) : Option (Int × Int × circbuf_t × Buf) :=
  match cb_ensure fresh cb0 with
  | .panicked => none
  | .err e cb => some (0, e, cb, [])
  | .ok cb =>
    if cb.empty then some (0, 0, cb, [])
    else
      let l := cb.buf.getD []
      let hi := (cb.head % cb.bufsz).toNat
      let ti := (cb.tail % cb.bufsz).toNat
      if hi ≤ ti then
        -- src := cb.buf[ti:]
        match trimMax max (l.drop ti) with
        | none => none
        | some s =>
          let wrote := min s.length dstcap
          if wrote ≠ s.length ∨ (wrote : Int) = max then
            some ((wrote : Int), 0,
              { cb with tail := cb.tail + wrote }, s.take wrote)
          else
            let c := wrote
            let max2 := if max ≠ 0 then max - (c : Int) else max
            let ti2 := ((cb.tail + wrote) % cb.bufsz).toNat
            if hi < ti2 then none  -- XXXPANIC "wut?"
            else
              -- src := cb.buf[ti:hi]
              match trimMax max2 ((l.drop ti2).take (hi - ti2)) with
              | none => none
              | some s2 =>
                let wrote2 := min s2.length (dstcap - wrote)
                some (((c + wrote2 : Nat) : Int), 0,
                  { cb with tail := cb.tail + (c + wrote2 : Nat) },
                  s.take wrote ++ s2.take wrote2)
      else
        -- src := cb.buf[ti:hi]
        match trimMax max ((l.drop ti).take (hi - ti)) with
        | none => none
        | some s =>
          let wrote := min s.length dstcap
          some ((wrote : Int), 0,
            { cb with tail := cb.tail + wrote }, s.take wrote)

/-- `copyout(dst)` is `copyout_n(dst, 0)`. -/
def copyout (fresh : Option (Buf × Int)) (cb0 : circbuf_t) (dstcap : Nat) :
    Option (Int × Int × circbuf_t × Buf) :=
  copyout_n fresh cb0 dstcap 0

/-! ## Concrete circbuf scenario (claim C2) -/

/-- The fresh backing page handed to `cb_ensure`, kept at the 8 bytes the
buffer will slice out of it (`bpg[:cb.bufsz]` with `bufsz = 8`); its
contents (zeros, for concreteness) are immediately overwritten. -/
def pg0 : Buf := List.replicate 8 0

/-- The bytes "ABCDEFGH". -/
def sABCDEFGH : Buf := [65, 66, 67, 68, 69, 70, 71, 72]

/-- The bytes "IJ". -/
def sIJ : Buf := [73, 74]

set_option maxRecDepth 20000 in
/-- C2 --- `circbuf` of size 8: a copyin of "ABCDEFGH" fills the buffer; a
copyout limited to 3 bytes yields "ABC"; a copyin of "IJ" succeeds; a
copyout limited to 7 bytes yields "DEFGHIJ" across the wrap point; the
buffer is then empty. -/
theorem circbuf_size8_scenario :
    cb_init cbZero 8 = some ⟨none, 8, 0, 0, 0⟩ ∧
    copyin (some (pg0, 7)) ⟨none, 8, 0, 0, 0⟩ sABCDEFGH =
      some (8, 0, ⟨some [65, 66, 67, 68, 69, 70, 71, 72], 8, 8, 0, 7⟩, []) ∧
    circbuf_t.full ⟨some [65, 66, 67, 68, 69, 70, 71, 72], 8, 8, 0, 7⟩ = true ∧
    copyout_n none ⟨some [65, 66, 67, 68, 69, 70, 71, 72], 8, 8, 0, 7⟩ 100 3 =
      some (3, 0, ⟨some [65, 66, 67, 68, 69, 70, 71, 72], 8, 8, 3, 7⟩,
        [65, 66, 67]) ∧
    copyin none ⟨some [65, 66, 67, 68, 69, 70, 71, 72], 8, 8, 3, 7⟩ sIJ =
      some (2, 0, ⟨some [73, 74, 67, 68, 69, 70, 71, 72], 8, 10, 3, 7⟩, []) ∧
    copyout_n none ⟨some [73, 74, 67, 68, 69, 70, 71, 72], 8, 10, 3, 7⟩ 100 7 =
      some (7, 0, ⟨some [73, 74, 67, 68, 69, 70, 71, 72], 8, 10, 10, 7⟩,
        [68, 69, 70, 71, 72, 73, 74]) ∧
    circbuf_t.empty ⟨some [73, 74, 67, 68, 69, 70, 71, 72], 8, 10, 10, 7⟩ =
      true := by
  refine ⟨by decide, by decide, by decide, by decide, by decide, by decide,
    by decide⟩

/-! ## cb_release (claim C9) -/

/-- C9 counterexample --- on the state with `buf = nil` but stale `head = 1`
and `p_pg = 5`, `cb_release` is an early-return no-op, so afterwards `p_pg`
is still 5 and `head` still 1: "after any call `p_pg` is 0 and
`head = tail = 0`" fails on this `circbuf_t` state. -/
theorem cb_release_stale_state_kept :
    cb_release ⟨none, 8, 1, 0, 5⟩ = ⟨none, 8, 1, 0, 5⟩ ∧
    ¬((cb_release ⟨none, 8, 1, 0, 5⟩).p_pg = 0 ∧
      (cb_release ⟨none, 8, 1, 0, 5⟩).head = 0) := by
  decide

/-- C9 amended --- `cb_release` is total and idempotent; on a state whose
`buf` is nil it is a no-op; after any call `buf` is nil; and after a call on
a state whose backing page is present (`buf` non-nil), `p_pg` is 0 and
`head = tail = 0`. -/
theorem cb_release_spec (cb : circbuf_t) :
    cb_release (cb_release cb) = cb_release cb ∧
    (cb.buf = none → cb_release cb = cb) ∧
    (cb_release cb).buf = none ∧
    (∀ l, cb.buf = some l →
      (cb_release cb).p_pg = 0 ∧ (cb_release cb).head = 0 ∧
      (cb_release cb).tail = 0) := by
  cases h : cb.buf <;> simp [cb_release, h]

/-- Witness for `cb_release_spec` at concrete states. -/
theorem cb_release_spec_witness :
    cb_release cbZero = cbZero ∧
    (cb_release ⟨some [0], 1, 1, 0, 9⟩).p_pg = 0 :=
  ⟨(cb_release_spec cbZero).2.1 rfl,
   ((cb_release_spec ⟨some [0], 1, 1, 0, 9⟩).2.2.2 [0] rfl).1⟩

/-! ## circbuf counter invariant (claim C1) -/

/-- The circbuf counter invariant: the monotone counters never cross and
never run more than one buffer apart, the size is positive, and the slice
view (when present) has exactly `bufsz` bytes. -/
def CbInv (cb : circbuf_t) : Prop :=
  0 ≤ cb.tail ∧ cb.tail ≤ cb.head ∧ cb.head - cb.tail ≤ cb.bufsz ∧
  0 < cb.bufsz ∧ ∀ l, cb.buf = some l → (l.length : Int) = cb.bufsz

/-- Difference of two counters against the difference of their ring
positions: they agree exactly or up to one wrap. -/
theorem emod_sub_cases (b x y : Int) (hb : 0 < b) (hxy : y ≤ x)
    (hle : x - y ≤ b) :
    x - y = x % b - y % b ∨ x - y = x % b - y % b + b := by
  have hx := Int.emod_nonneg x (ne_of_gt hb)
  have hy := Int.emod_nonneg y (ne_of_gt hb)
  have hx2 := Int.emod_lt_of_pos x hb
  have hy2 := Int.emod_lt_of_pos y hb
  have hxe := Int.ediv_add_emod x b
  have hye := Int.ediv_add_emod y b
  set k := x / b - y / b with hk
  have hbk : x - y - (x % b - y % b) = b * k := by
    have hsplit : b * k = b * (x / b) - b * (y / b) := by rw [hk]; ring
    linarith
  have hk0 : 0 ≤ k := by
    by_contra hneg
    push_neg at hneg
    have h1 : k ≤ -1 := by omega
    have h2 : b * k ≤ b * (-1) := mul_le_mul_of_nonneg_left h1 hb.le
    have h3 : b * (-1) = -b := by ring
    linarith
  have hk1 : k ≤ 1 := by
    by_contra hneg
    push_neg at hneg
    have h1 : 2 ≤ k := by omega
    have h2 : b * 2 ≤ b * k := mul_le_mul_of_nonneg_left h1 hb.le
    linarith
  have : k = 0 ∨ k = 1 := by omega
  rcases this with h | h
  · left
    rw [h, mul_zero] at hbk
    linarith
  · right
    rw [h, mul_one] at hbk
    linarith

/-- `cb_ensure` returns an error only without touching the buffer. -/
theorem cb_ensure_err {fresh : Option (Buf × Int)} {cb : circbuf_t} {e : Int}
    {cb' : circbuf_t} (h : cb_ensure fresh cb = .err e cb') : cb' = cb := by
  rcases fresh with _ | ⟨pg, ppg⟩ <;> simp only [cb_ensure] at h <;>
    split_ifs at h <;> simp_all

/-- A successful `cb_ensure` preserves the invariant and yields a present
buffer. -/
theorem cb_ensure_ok {fresh : Option (Buf × Int)} {cb cb' : circbuf_t}
    (hInv : CbInv cb) (h : cb_ensure fresh cb = .ok cb') :
    CbInv cb' ∧ ∃ l, cb'.buf = some l := by
  obtain ⟨hT0, hTH, hUb, hb, hlen⟩ := hInv
  rcases fresh with _ | ⟨pg, ppg⟩ <;> simp only [cb_ensure] at h
  · split_ifs at h with h1
    injection h with h
    subst h
    obtain ⟨l, hl⟩ := Option.ne_none_iff_exists'.mp h1
    exact ⟨⟨hT0, hTH, hUb, hb, hlen⟩, l, hl⟩
  · split_ifs at h with h1 h2 h3
    · injection h with h
      subst h
      obtain ⟨l, hl⟩ := Option.ne_none_iff_exists'.mp h1
      exact ⟨⟨hT0, hTH, hUb, hb, hlen⟩, l, hl⟩
    · injection h with h
      subst h
      have hlt : (pg.take cb.bufsz.toNat).length = cb.bufsz.toNat := by
        rw [List.length_take]
        exact Nat.min_eq_left h3.2
      refine ⟨⟨le_refl 0, le_refl 0, ?_, ?_, ?_⟩, _, rfl⟩
      · simp only [cb_init_phys, hlt]
        omega
      · simp only [cb_init_phys, hlt]
        omega
      · intro l hl
        simp only [cb_init_phys, Option.some.injEq] at hl
        subst hl
        simp [cb_init_phys]

/-- `writeAt` keeps the buffer length when the window fits. -/
theorem writeAt_length (l : Buf) (pos : Nat) (xs : Buf)
    (h : pos + xs.length ≤ l.length) : (writeAt l pos xs).length = l.length := by
  simp [writeAt]
  omega

/-- `copyin` preserves the counter invariant. -/
theorem copyin_CbInv {fresh : Option (Buf × Int)} {cb : circbuf_t} {src : Buf}
    {n e : Int} {cb' : circbuf_t} {src' : Buf}
    (hInv : CbInv cb) (h : copyin fresh cb src = some (n, e, cb', src')) :
    CbInv cb' := by
  unfold copyin at h
  cases hE : cb_ensure fresh cb with
  | panicked => rw [hE] at h; simp at h
  | err e2 cbe =>
      rw [hE] at h
      obtain rfl := cb_ensure_err hE
      simp only [Option.some.injEq, Prod.mk.injEq] at h
      obtain ⟨-, -, rfl, -⟩ := h
      exact hInv
  | ok cb1 =>
      rw [hE] at h
      obtain ⟨hInv1, l, hl⟩ := cb_ensure_ok hInv hE
      obtain ⟨hT0, hTH, hUb, hb, hlen⟩ := hInv1
      have hlenl := hlen l hl
      by_cases hfull : cb1.full
      · simp only [hfull, if_pos, Option.some.injEq, Prod.mk.injEq] at h
        obtain ⟨-, -, rfl, -⟩ := h
        exact ⟨hT0, hTH, hUb, hb, hlen⟩
      · simp only [hfull, if_neg, Bool.false_eq_true, not_false_iff, hl,
          Option.getD_some] at h
        simp only [circbuf_t.full, beq_iff_eq] at hfull
        set H := cb1.head % cb1.bufsz with hHdef
        set T := cb1.tail % cb1.bufsz with hTdef
        have hH0 : 0 ≤ H := Int.emod_nonneg _ (ne_of_gt hb)
        have hT0' : 0 ≤ T := Int.emod_nonneg _ (ne_of_gt hb)
        have hHb : H < cb1.bufsz := Int.emod_lt_of_pos _ hb
        have hTb : T < cb1.bufsz := Int.emod_lt_of_pos _ hb
        have hcase := emod_sub_cases cb1.bufsz cb1.head cb1.tail hb hTH hUb
        rw [← hHdef, ← hTdef] at hcase
        split at h
        · -- ti ≤ hi
          rename_i hti
          split at h
          · -- short first write: early return
            rename_i hwne
            simp only [Option.some.injEq, Prod.mk.injEq] at h
            obtain ⟨-, -, rfl, -⟩ := h
            unfold CbInv
            dsimp only
            refine ⟨hT0, by omega, by omega, hb, ?_⟩
            intro l' hl'
            injection hl' with hl'
            subst hl'
            rw [writeAt_length]
            · exact hlenl
            · rw [List.length_take]
              omega
          · -- full first write, wraparound second write
            rename_i hweq
            split at h
            · simp at h
            · rename_i hple
              simp only [Option.some.injEq, Prod.mk.injEq] at h
              obtain ⟨-, -, rfl, -⟩ := h
              unfold CbInv
              dsimp only
              refine ⟨hT0, by omega, by omega, hb, ?_⟩
              intro l' hl'
              injection hl' with hl'
              subst hl'
              rw [writeAt_length, writeAt_length]
              · exact hlenl
              · rw [List.length_take]
                omega
              · rw [writeAt_length, List.length_take]
                · omega
                · rw [List.length_take]
                  omega
        · -- wrapped state: single write
          rename_i hti
          simp only [Option.some.injEq, Prod.mk.injEq] at h
          obtain ⟨-, -, rfl, -⟩ := h
          unfold CbInv
          dsimp only
          refine ⟨hT0, by omega, by omega, hb, ?_⟩
          intro l' hl'
          injection hl' with hl'
          subst hl'
          rw [writeAt_length]
          · exact hlenl
          · rw [List.length_take]
            omega

/-- Trimming only shrinks. -/
theorem trimMax_length_le {max : Int} {s0 s : Buf} (h : trimMax max s0 = some s) :
    s.length ≤ s0.length := by
  unfold trimMax at h
  split_ifs at h <;>
    (injection h with h; subst h; simp [List.length_take])

/-- `copyout_n` preserves the counter invariant. -/
theorem copyout_n_CbInv {fresh : Option (Buf × Int)} {cb : circbuf_t}
    {cap : Nat} {max : Int} {n e : Int} {cb' : circbuf_t} {out : Buf}
    (hInv : CbInv cb) (h : copyout_n fresh cb cap max = some (n, e, cb', out)) :
    CbInv cb' := by
  unfold copyout_n at h
  cases hE : cb_ensure fresh cb with
  | panicked => rw [hE] at h; simp at h
  | err e2 cbe =>
      rw [hE] at h
      obtain rfl := cb_ensure_err hE
      simp only [Option.some.injEq, Prod.mk.injEq] at h
      obtain ⟨-, -, rfl, -⟩ := h
      exact hInv
  | ok cb1 =>
      rw [hE] at h
      obtain ⟨hInv1, l, hl⟩ := cb_ensure_ok hInv hE
      obtain ⟨hT0, hTH, hUb, hb, hlen⟩ := hInv1
      have hlenl := hlen l hl
      by_cases hempty : cb1.empty
      · simp only [hempty, if_pos, Option.some.injEq, Prod.mk.injEq] at h
        obtain ⟨-, -, rfl, -⟩ := h
        exact ⟨hT0, hTH, hUb, hb, hlen⟩
      · simp only [hempty, if_neg, Bool.false_eq_true, not_false_iff, hl,
          Option.getD_some] at h
        simp only [circbuf_t.empty, beq_iff_eq] at hempty
        set H := cb1.head % cb1.bufsz with hHdef
        set T := cb1.tail % cb1.bufsz with hTdef
        have hH0 : 0 ≤ H := Int.emod_nonneg _ (ne_of_gt hb)
        have hT0' : 0 ≤ T := Int.emod_nonneg _ (ne_of_gt hb)
        have hHb : H < cb1.bufsz := Int.emod_lt_of_pos _ hb
        have hTb : T < cb1.bufsz := Int.emod_lt_of_pos _ hb
        have hcase := emod_sub_cases cb1.bufsz cb1.head cb1.tail hb hTH hUb
        rw [← hHdef, ← hTdef] at hcase
        split at h
        · -- hi ≤ ti
          rename_i hti
          split at h
          · simp at h
          · rename_i s hS
            have hsl := trimMax_length_le hS
            simp only [List.length_drop] at hsl
            split at h
            · -- early return
              simp only [Option.some.injEq, Prod.mk.injEq] at h
              obtain ⟨-, -, rfl, -⟩ := h
              unfold CbInv
              dsimp only
              refine ⟨by omega, by omega, by omega, hb, ?_⟩
              intro l' hl'
              injection hl' with hl'
              subst hl'
              exact hlenl
            · -- wraparound second read
              split at h
              · simp at h
              · rename_i hple
                split at h
                · simp at h
                · rename_i s2 hS2
                  have hs2l := trimMax_length_le hS2
                  simp only [List.length_take, List.length_drop] at hs2l
                  simp only [Option.some.injEq, Prod.mk.injEq] at h
                  obtain ⟨-, -, rfl, -⟩ := h
                  unfold CbInv
                  dsimp only
                  refine ⟨by omega, by omega, by omega, hb, ?_⟩
                  intro l' hl'
                  injection hl' with hl'
                  subst hl'
                  exact hlenl
        · -- wrapped state: single read
          rename_i hti
          split at h
          · simp at h
          · rename_i s hS
            have hsl := trimMax_length_le hS
            simp only [List.length_take, List.length_drop] at hsl
            simp only [Option.some.injEq, Prod.mk.injEq] at h
            obtain ⟨-, -, rfl, -⟩ := h
            unfold CbInv
            dsimp only
            refine ⟨by omega, by omega, by omega, hb, ?_⟩
            intro l' hl'
            injection hl' with hl'
            subst hl'
            exact hlenl

/-- One interaction with the circular buffer: a `copyin` from some user
source, or a `copyout_n` to some user destination. -/
inductive CbOp where
  | cin (fresh : Option (Buf × Int)) (src : Buf)
  | cout (fresh : Option (Buf × Int)) (dstcap : Nat) (max : Int)

/-- Run one operation, keeping the resulting buffer state. -/
def cbStep (cb : circbuf_t) : CbOp → Option circbuf_t
  | .cin fresh src => (copyin fresh cb src).map fun r => r.2.2.1
  | .cout fresh cap max => (copyout_n fresh cb cap max).map fun r => r.2.2.1

/-- Run an arbitrary interleaving of `copyin` / `copyout_n` operations. -/
def cbRun (cb : circbuf_t) : List CbOp → Option circbuf_t
  | [] => some cb
  | op :: ops => (cbStep cb op).bind fun cb1 => cbRun cb1 ops

/-- A step preserves the counter invariant. -/
theorem cbStep_CbInv {cb cb' : circbuf_t} {op : CbOp}
    (hInv : CbInv cb) (h : cbStep cb op = some cb') : CbInv cb' := by
  cases op with
  | cin fresh src =>
      simp only [cbStep] at h
      cases hres : copyin fresh cb src with
      | none => rw [hres] at h; simp at h
      | some r =>
          rw [hres] at h
          obtain ⟨n, e, cbx, srcx⟩ := r
          simp only [Option.map_some'] at h
          injection h with h
          subst h
          exact copyin_CbInv hInv hres
  | cout fresh cap max =>
      simp only [cbStep] at h
      cases hres : copyout_n fresh cb cap max with
      | none => rw [hres] at h; simp at h
      | some r =>
          rw [hres] at h
          obtain ⟨n, e, cbx, outx⟩ := r
          simp only [Option.map_some'] at h
          injection h with h
          subst h
          exact copyout_n_CbInv hInv hres

/-- Any run from an invariant state ends in an invariant state. -/
theorem cbRun_CbInv {cb cb' : circbuf_t} {ops : List CbOp}
    (hInv : CbInv cb) (h : cbRun cb ops = some cb') : CbInv cb' := by
  induction ops generalizing cb with
  | nil => simp only [cbRun, Option.some.injEq] at h; subst h; exact hInv
  | cons op ops ih =>
      simp only [cbRun, Option.bind_eq_some] at h
      obtain ⟨cb1, h1, h2⟩ := h
      exact ih (cbStep_CbInv hInv h1) h2

/-- C1 --- starting from `cb_init`, after every interleaving of `copyin` and
`copyout` operations the counters satisfy `head ≥ tail` and
`head − tail ≤ bufsz`; `empty()` is true exactly when `head = tail` and
`full()` exactly when `head − tail = bufsz`.  (Runs quantify over every
reachable state, so the invariant holds at all times.) -/
theorem circbuf_counter_invariant (start : circbuf_t) (sz : Int)
    (cb0 : circbuf_t) (ops : List CbOp) (cb' : circbuf_t)
    (hbuf : start.buf = none) (hinit : cb_init start sz = some cb0)
    (hrun : cbRun cb0 ops = some cb') :
    (cb'.tail ≤ cb'.head ∧ cb'.head - cb'.tail ≤ cb'.bufsz) ∧
    (cb'.empty = true ↔ cb'.head = cb'.tail) ∧
    (cb'.full = true ↔ cb'.head - cb'.tail = cb'.bufsz) := by
  have hInv0 : CbInv cb0 := by
    unfold cb_init at hinit
    split_ifs at hinit with hsz
    push_neg at hsz
    injection hinit with hinit
    subst hinit
    unfold CbInv
    dsimp only
    refine ⟨le_refl 0, le_refl 0, by omega, by omega, ?_⟩
    intro l hl
    rw [hbuf] at hl
    simp at hl
  obtain ⟨h1, h2, h3, hb, -⟩ := cbRun_CbInv hInv0 hrun
  refine ⟨⟨h2, h3⟩, ?_, ?_⟩
  · simp [circbuf_t.empty]
  · simp [circbuf_t.full]

/-- Witness for `circbuf_counter_invariant` on the size-8 buffer after one
concrete `copyin`. -/
theorem circbuf_counter_invariant_witness :
    ((⟨some [65, 66, 67, 68, 69, 70, 71, 72], 8, 8, 0, 7⟩ : circbuf_t).tail ≤
      (⟨some [65, 66, 67, 68, 69, 70, 71, 72], 8, 8, 0, 7⟩ : circbuf_t).head ∧
     (⟨some [65, 66, 67, 68, 69, 70, 71, 72], 8, 8, 0, 7⟩ : circbuf_t).head -
      (⟨some [65, 66, 67, 68, 69, 70, 71, 72], 8, 8, 0, 7⟩ : circbuf_t).tail ≤
      (⟨some [65, 66, 67, 68, 69, 70, 71, 72], 8, 8, 0, 7⟩ : circbuf_t).bufsz) ∧
    ((⟨some [65, 66, 67, 68, 69, 70, 71, 72], 8, 8, 0, 7⟩ : circbuf_t).empty =
        true ↔
      (⟨some [65, 66, 67, 68, 69, 70, 71, 72], 8, 8, 0, 7⟩ : circbuf_t).head =
      (⟨some [65, 66, 67, 68, 69, 70, 71, 72], 8, 8, 0, 7⟩ : circbuf_t).tail) ∧
    ((⟨some [65, 66, 67, 68, 69, 70, 71, 72], 8, 8, 0, 7⟩ : circbuf_t).full =
        true ↔
      (⟨some [65, 66, 67, 68, 69, 70, 71, 72], 8, 8, 0, 7⟩ : circbuf_t).head -
      (⟨some [65, 66, 67, 68, 69, 70, 71, 72], 8, 8, 0, 7⟩ : circbuf_t).tail =
      (⟨some [65, 66, 67, 68, 69, 70, 71, 72], 8, 8, 0, 7⟩ : circbuf_t).bufsz) :=
  circbuf_counter_invariant cbZero 8 ⟨none, 8, 0, 0, 0⟩
    [.cin (some (pg0, 7)) sABCDEFGH]
    ⟨some [65, 66, 67, 68, 69, 70, 71, 72], 8, 8, 0, 7⟩
    rfl (by decide) (by decide)

/-! ## proc_new (claims C3, C4) -/

/-- The global process-table state `proc_new` mutates under `proclock`: the
monotone id counter `pid_cur`, the system-wide thread count `nthreads`, and
the key set of the `allprocs` map.  (The rest of `proc_new` only builds the
new `Proc_t` itself.) -/
structure PTabState where
  pid_cur : Int
  nthreads : Int
  allprocs : List Int
deriving DecidableEq

/-- `proc_new`: fail (`(nil, false)`, embedded as pid `none`) when the
thread cap `sysprocs` (the value of `syslimit.sysprocs`, defined outside the
excerpted file) is reached; otherwise bump `nthreads`, mint
`np = pid_cur + 1` and `tid0 = pid_cur + 2` from the shared sequence, panic
(`none`) if `np` is already mapped, and insert `np`. -/
def proc_new (sysprocs : Int) (s : PTabState) :
    Option (Option Int × PTabState) :=
  if s.nthreads ≥ sysprocs then some (none, s)
  else
    let np := s.pid_cur + 1
    if np ∈ s.allprocs then none  -- panic "pid exists"
    else some (some np, ⟨s.pid_cur + 2, s.nthreads + 1, np :: s.allprocs⟩)

/-- A sequence of `n` `proc_new` calls, collecting the emitted pids in
order. -/
def proc_run (sysprocs : Int) : PTabState → Nat → Option (List Int × PTabState)
  | s, 0 => some ([], s)
  | s, n + 1 =>
    (proc_new sysprocs s).bind fun r =>
      (proc_run sysprocs r.2 n).map fun rest => (r.1.toList ++ rest.1, rest.2)

/-- Process-table invariant: every mapped pid is at most the id counter. -/
def ProcInv (s : PTabState) : Prop := ∀ p ∈ s.allprocs, p ≤ s.pid_cur

/-- Any run of `proc_new` calls from an invariant state never panics and
emits a strictly increasing pid sequence bounded by the counters. -/
theorem proc_run_sound (sysprocs : Int) (s : PTabState) (n : Nat)
    (hInv : ProcInv s) :
    ∃ ps s', proc_run sysprocs s n = some (ps, s') ∧
      ps.Pairwise (· < ·) ∧ ProcInv s' ∧
      (∀ p ∈ ps, s.pid_cur < p ∧ p ≤ s'.pid_cur) ∧
      s.pid_cur ≤ s'.pid_cur := by
  induction n generalizing s with
  | zero =>
      exact ⟨[], s, rfl, List.Pairwise.nil, hInv, by simp, le_refl _⟩
  | succ n ih =>
      by_cases hcap : s.nthreads ≥ sysprocs
      · obtain ⟨ps, s', hrun, hpw, hInv', hbnd, hmono⟩ := ih s hInv
        refine ⟨ps, s', ?_, hpw, hInv', hbnd, hmono⟩
        simp [proc_run, proc_new, if_pos hcap, hrun]
      · have hnp : s.pid_cur + 1 ∉ s.allprocs := fun hm =>
          absurd (hInv _ hm) (by omega)
        obtain ⟨ps, s', hrun, hpw, hInv', hbnd, hmono⟩ :=
          ih ⟨s.pid_cur + 2, s.nthreads + 1, (s.pid_cur + 1) :: s.allprocs⟩
            (by
              intro p hp
              dsimp only at hp ⊢
              rcases List.mem_cons.mp hp with h | h
              · omega
              · have := hInv _ h
                omega)
        refine ⟨(s.pid_cur + 1) :: ps, s', ?_, ?_, hInv', ?_, ?_⟩
        · simp [proc_run, proc_new, if_neg hcap, if_neg hnp, hrun]
        · refine List.Pairwise.cons ?_ hpw
          intro p hp
          have := (hbnd p hp).1
          dsimp only at this
          omega
        · intro p hp
          rcases List.mem_cons.mp hp with h | h
          · subst h
            dsimp only at hmono
            omega
          · have h1 := hbnd p h
            dsimp only at h1
            omega
        · dsimp only at hmono
          omega

/-- C3 --- over any sequence of `proc_new` calls from a state where every
mapped pid is at most the id counter, the emitted pids are strictly
increasing, hence pairwise unique. -/
theorem proc_new_pids_strictly_increasing (sysprocs : Int) (s : PTabState)
    (n : Nat) (hInv : ProcInv s) :
    ∃ ps s', proc_run sysprocs s n = some (ps, s') ∧ ps.Pairwise (· < ·) := by
  obtain ⟨ps, s', hrun, hpw, -⟩ := proc_run_sound sysprocs s n hInv
  exact ⟨ps, s', hrun, hpw⟩

/-- Witness for `proc_new_pids_strictly_increasing` on the empty table. -/
theorem proc_new_pids_strictly_increasing_witness :
    ∃ ps s', proc_run 100 ⟨0, 0, []⟩ 3 = some (ps, s') ∧
      ps.Pairwise (· < ·) :=
  proc_new_pids_strictly_increasing 100 ⟨0, 0, []⟩ 3 (by intro p hp; simp at hp)

/-- C4 --- a `proc_new` call at the thread cap returns `(nil, false)` and
leaves `pid_cur`, `nthreads` and `allprocs` untouched. -/
theorem proc_new_at_cap (sysprocs : Int) (s : PTabState)
    (h : s.nthreads ≥ sysprocs) :
    proc_new sysprocs s = some (none, s) := by
  unfold proc_new
  rw [if_pos h]

/-- Witness for `proc_new_at_cap` at a concrete saturated table. -/
theorem proc_new_at_cap_witness :
    proc_new 2 ⟨5, 2, [1, 3]⟩ = some (none, ⟨5, 2, [1, 3]⟩) :=
  proc_new_at_cap 2 ⟨5, 2, [1, 3]⟩ (by decide)

/-! ## trapstub (claim C5) -/

/-- Modelled from the spec: the interrupt number space.  `TIMER` is fixed,
`IRQ_BASE..IRQ_LAST` are the IOAPIC lines with `INT_KBD` and `INT_COM1`
among them, and the disk and MSI vectors are distinct numbers.  The concrete
values live outside the excerpted file, so `trapstub` is parameterised over
them; `TF_TRAP` is the trap-number index into the trap frame. -/
structure IrqEnv where
  TF_TRAP : Nat
  TIMER : Nat
  IRQ_BASE : Nat
  IRQ_LAST : Nat
  INT_KBD : Nat
  INT_COM1 : Nat
  INT_DISK : Nat
  INT_MSI0 : Nat
  INT_MSI1 : Nat
  INT_MSI2 : Nat
  INT_MSI3 : Nat
  INT_MSI4 : Nat
  INT_MSI5 : Nat
  INT_MSI6 : Nat
  INT_MSI7 : Nat
deriving DecidableEq

/-- Outcome of the trap stub: either the CPU is halted in an infinite loop
(`for {}` after `runtime.Pnum`), or the stub returns normally after waking
the task waiting on the vector, having masked an IOAPIC line or not. -/
inductive TrapOut where
  | halt
  | wake (vec : Nat) (maskedIrq : Option Nat)
deriving DecidableEq

/-- `trapstub`: reads `trapno = tf[TF_TRAP]`; any vector outside
`(TIMER, IRQ_LAST]` halts; keyboard/COM1 wake their vector and mask
`trapno - IRQ_BASE` on the IOAPIC; disk/MSI vectors wake without masking;
anything else halts. -/
def trapstub (env : IrqEnv) (tf : Nat → Nat) : TrapOut :=
  let trapno := tf env.TF_TRAP
  if trapno ≤ env.TIMER ∨ env.IRQ_LAST < trapno then .halt
  else if trapno = env.INT_KBD ∨ trapno = env.INT_COM1 then
    .wake trapno (some (trapno - env.IRQ_BASE))
  else if trapno = env.INT_DISK ∨ trapno = env.INT_MSI0 ∨
      trapno = env.INT_MSI1 ∨ trapno = env.INT_MSI2 ∨
      trapno = env.INT_MSI3 ∨ trapno = env.INT_MSI4 ∨
      trapno = env.INT_MSI5 ∨ trapno = env.INT_MSI6 ∨
      trapno = env.INT_MSI7 then
    .wake trapno none
  else .halt  -- unexpected IRQ

/-- C5 --- `trapstub` halts the CPU on every trap frame whose trap number is
at most `TIMER` or above `IRQ_LAST`, and it returns normally only for
vectors inside `(TIMER, IRQ_LAST]`. -/
theorem trapstub_fatal_outside_irq_range (env : IrqEnv) (tf : Nat → Nat) :
    ((tf env.TF_TRAP ≤ env.TIMER ∨ env.IRQ_LAST < tf env.TF_TRAP) →
      trapstub env tf = .halt) ∧
    (trapstub env tf ≠ .halt →
      env.TIMER < tf env.TF_TRAP ∧ tf env.TF_TRAP ≤ env.IRQ_LAST) := by
  have hhalt : (tf env.TF_TRAP ≤ env.TIMER ∨ env.IRQ_LAST < tf env.TF_TRAP) →
      trapstub env tf = .halt := by
    intro h
    simp only [trapstub]
    rw [if_pos h]
  refine ⟨hhalt, ?_⟩
  intro hne
  rcases le_or_lt (tf env.TF_TRAP) env.TIMER with h1 | h1
  · exact absurd (hhalt (Or.inl h1)) hne
  rcases le_or_lt (tf env.TF_TRAP) env.IRQ_LAST with h2 | h2
  · exact ⟨h1, h2⟩
  · exact absurd (hhalt (Or.inr h2)) hne

/-- A concrete interrupt environment for the witness (the usual x86 layout:
timer at 32, IOAPIC lines up to 56, keyboard 33, COM1 36, disk/MSI above). -/
def envC : IrqEnv := ⟨23, 32, 32, 56, 33, 36, 56, 48, 49, 50, 51, 52, 53, 54, 55⟩

/-- Witness for `trapstub_fatal_outside_irq_range`: vector 100 is fatal. -/
theorem trapstub_fatal_outside_irq_range_witness :
    trapstub envC (fun _ => 100) = .halt :=
  (trapstub_fatal_outside_irq_range envC (fun _ => 100)).1 (Or.inr (by decide))

/-! ## passfd_t (claims C6, C10) -/

/-- The fd pass queue: `cb` is the storage ring (`none` = Go nil slice,
slots hold `*Fd_t` pointers embedded as `Option Int` fd identities), `inum`
and `cnum` are the monotone input/consume counters (Go `uint`; in every
reachable state `cnum ≤ inum`, so `Nat` subtraction agrees with the
wrapping Go subtraction). -/
structure passfd_t where
  cb : Option (List (Option Int))
  inum : Nat
  cnum : Nat
deriving DecidableEq

/-- The Go zero value of `passfd_t`. -/
def pfZero : passfd_t := ⟨none, 0, 0⟩

/-- `add(nfd)`: allocate the 10-slot ring on first use, refuse when
`inum - cnum` equals the ring length, otherwise store at `inum % len` and
bump `inum`. -/
def passfd_t.add (pf : passfd_t) (nfd : Int) : Bool × passfd_t :=
  let cbl := pf.cb.getD (List.replicate 10 none)
  let l := cbl.length
  if pf.inum - pf.cnum = l then (false, { pf with cb := some cbl })
  else (true, ⟨some (cbl.set (pf.inum % l) (some nfd)), pf.inum + 1, pf.cnum⟩)

/-- `take()`: `(nil, false)` when the queue is empty; otherwise read slot
`cnum % len` and bump `cnum`.  On a non-empty queue whose ring was never
allocated the index computation `cnum % 0` would panic (`none`). -/
def passfd_t.take (pf : passfd_t) : Option (Option Int × Bool × passfd_t) :=
  let l := (pf.cb.getD []).length
  if pf.inum = pf.cnum then some (none, false, pf)
  else if l = 0 then none  -- pf.cb[pf.cnum % 0]: division by zero panic
  else some ((pf.cb.getD []).getD (pf.cnum % l) none, true,
    { pf with cnum := pf.cnum + 1 })

/-- The `closeall` loop body, made structurally recursive on fuel: each
successful `take` moves `cnum` up towards `inum`, so `inum - cnum + 1`
iterations always reach the failing `take` that breaks the loop.  Returns
the final state and the fds that were closed, in order. -/
def passfd_t.closeall_go :
    Nat → passfd_t → List (Option Int) → Option (passfd_t × List (Option Int))
  | 0, _, _ => none
  | fuel + 1, pf, acc =>
    match pf.take with
    | none => none
    | some (fd, ok, pf') =>
      if ok then passfd_t.closeall_go fuel pf' (acc ++ [fd])
      else some (pf', acc)

/-- `closeall()`: take until failure, closing each taken fd. -/
def passfd_t.closeall (pf : passfd_t) :
    Option (passfd_t × List (Option Int)) :=
  passfd_t.closeall_go (pf.inum - pf.cnum + 1) pf []

/-- C10 --- on the zero-value queue, `take` safely returns `(nil, false)`
without reaching the `cnum % 0` index computation, and `closeall`
terminates at once having closed nothing. -/
theorem passfd_zero_take_closeall_safe :
    passfd_t.take pfZero = some (none, false, pfZero) ∧
    passfd_t.closeall pfZero = some (pfZero, []) := by
  decide

/-- One interaction with the fd pass queue. -/
inductive PfOp where
  | add (fd : Int)
  | take

/-- Step of the queue together with its history: the fds successfully added
(in order) and the slot values successfully taken (in order). -/
def pfStep (st : passfd_t × List Int × List (Option Int)) (op : PfOp) :
    Option (passfd_t × List Int × List (Option Int)) :=
  match op with
  | .add fd =>
      let r := st.1.add fd
      some (r.2, if r.1 then st.2.1 ++ [fd] else st.2.1, st.2.2)
  | .take =>
      (st.1.take).map fun r =>
        (r.2.2, st.2.1, if r.2.1 then st.2.2 ++ [r.1] else st.2.2)

/-- Run a sequence of operations from the zero-value queue. -/
def pfRun (ops : List PfOp) :
    Option (passfd_t × List Int × List (Option Int)) :=
  ops.foldl (fun ost op => ost.bind fun st => pfStep st op) (some (pfZero, [], []))

/-- Queue/history invariant: the counters bracket a window of at most 10
pending fds, the taken history is the `some`-image of the taken prefix of
the added history, and each pending slot `k % 10` holds the `k`-th added
fd. -/
def PfInv : passfd_t × List Int × List (Option Int) → Prop
  | (pf, adds, takes) =>
    pf.cnum ≤ pf.inum ∧ pf.inum - pf.cnum ≤ 10 ∧
    pf.inum = adds.length ∧ pf.cnum = takes.length ∧
    takes = (adds.take pf.cnum).map some ∧
    (pf.cb = none → pf.inum = 0 ∧ pf.cnum = 0) ∧
    ∀ l, pf.cb = some l → l.length = 10 ∧
      ∀ k, pf.cnum ≤ k → k < pf.inum → l.getD (k % 10) none = adds[k]?


theorem pfStep_PfInv {st st' : passfd_t × List Int × List (Option Int)}
    {op : PfOp} (hInv : PfInv st) (h : pfStep st op = some st') : PfInv st' := by
  obtain ⟨⟨cbf, inum, cnum⟩, adds, takes⟩ := st
  obtain ⟨hc1, hc2, hc3, hc4, hc5, hc6, hc7⟩ := hInv
  dsimp only at hc1 hc2 hc3 hc4 hc5 hc6 hc7
  cases op with
  | add fd =>
      simp only [pfStep] at h
      injection h with h
      subst h
      cases cbf with
      | none =>
          obtain ⟨hi0, hn0⟩ := hc6 rfl
          subst hi0 hn0
          have hadds : adds = [] := List.length_eq_zero.mp hc3.symm
          have htakes : takes = [] := List.length_eq_zero.mp hc4.symm
          subst hadds htakes
          have hstep : passfd_t.add ⟨none, 0, 0⟩ fd =
              (true, ⟨some ((List.replicate 10 none).set 0 (some fd)), 1, 0⟩) :=
            rfl
          rw [hstep]
          show PfInv (⟨some ((List.replicate 10 none).set 0 (some fd)), 1, 0⟩,
            [] ++ [fd], [])
          refine ⟨by dsimp only; omega, by dsimp only; omega, by simp, rfl,
            by simp, by simp, ?_⟩
          intro l hl
          injection hl with hl
          subst hl
          refine ⟨by simp, ?_⟩
          intro k hk1 hk2
          dsimp only at hk2
          have hk0 : k = 0 := by omega
          subst hk0
          rfl
      | some l0 =>
          obtain ⟨hl10, hslots⟩ := hc7 l0 rfl
          by_cases hfull : inum - cnum = 10
          · have hstep : passfd_t.add ⟨some l0, inum, cnum⟩ fd =
                (false, ⟨some l0, inum, cnum⟩) := by
              simp [passfd_t.add, hl10, hfull]
            rw [hstep]
            exact ⟨hc1, hc2, hc3, hc4, hc5, hc6, hc7⟩
          · have hstep : passfd_t.add ⟨some l0, inum, cnum⟩ fd =
                (true, ⟨some (l0.set (inum % 10) (some fd)), inum + 1, cnum⟩) := by
              simp only [passfd_t.add, Option.getD_some, hl10]
              rw [if_neg hfull]
            rw [hstep]
            show PfInv (⟨some (l0.set (inum % 10) (some fd)), inum + 1, cnum⟩,
              adds ++ [fd], takes)
            refine ⟨by dsimp only; omega, by dsimp only; omega,
              by simp [hc3], by exact hc4, ?_, by simp, ?_⟩
            · dsimp only
              rw [List.take_append_of_le_length (by omega)]
              exact hc5
            · intro l hl
              injection hl with hl
              subst hl
              refine ⟨by simp [hl10], ?_⟩
              intro k hk1 hk2
              dsimp only at hk1 hk2
              rcases Nat.lt_succ_iff_lt_or_eq.mp hk2 with hk | hk
              · have hne : inum % 10 ≠ k % 10 := by
                  intro heq
                  have hdvd := (Nat.modEq_iff_dvd' (le_of_lt hk)).mp heq.symm
                  have hz := Nat.eq_zero_of_dvd_of_lt hdvd (by omega)
                  omega
                rw [List.getD_eq_getElem?_getD, List.getElem?_set_ne hne,
                  ← List.getD_eq_getElem?_getD,
                  List.getElem?_append_left (show k < adds.length by omega)]
                exact hslots k hk1 hk
              · rw [hk]
                have h10 : inum % 10 < l0.length := by
                  rw [hl10]
                  exact Nat.mod_lt _ (by norm_num)
                rw [List.getD_eq_getElem?_getD, List.getElem?_set_self h10,
                  Option.getD_some, hc3, List.getElem?_concat_length]
  | take =>
      simp only [pfStep] at h
      by_cases hie : inum = cnum
      · have htake : passfd_t.take ⟨cbf, inum, cnum⟩ =
            some (none, false, ⟨cbf, inum, cnum⟩) := by
          simp [passfd_t.take, hie]
        rw [htake] at h
        simp only [Option.map_some'] at h
        injection h with h
        subst h
        exact ⟨hc1, hc2, hc3, hc4, hc5, hc6, hc7⟩
      · cases cbf with
        | none =>
            obtain ⟨hi0, hn0⟩ := hc6 rfl
            omega
        | some l0 =>
            obtain ⟨hl10, hslots⟩ := hc7 l0 rfl
            have htake : passfd_t.take ⟨some l0, inum, cnum⟩ =
                some (l0.getD (cnum % 10) none, true,
                  ⟨some l0, inum, cnum + 1⟩) := by
              simp only [passfd_t.take, Option.getD_some, hl10]
              rw [if_neg hie, if_neg (by norm_num)]
            rw [htake] at h
            simp only [Option.map_some'] at h
            injection h with h
            subst h
            have hlt : cnum < adds.length := by omega
            have hslot := hslots cnum (le_refl _) (by omega)
            show PfInv (⟨some l0, inum, cnum + 1⟩, adds,
              takes ++ [l0.getD (cnum % 10) none])
            refine ⟨by dsimp only; omega, by dsimp only; omega,
              by exact hc3, ?_, ?_, by simp, ?_⟩
            · simp [hc4]
            · dsimp only
              rw [hslot, List.take_succ, List.getElem?_eq_getElem hlt, hc5]
              simp only [Option.toList_some, List.map_append, List.map_cons,
                List.map_nil]
            · intro l hl
              injection hl with hl
              subst hl
              refine ⟨hl10, ?_⟩
              intro k hk1 hk2
              dsimp only at hk1 hk2
              exact hslots k (by omega) hk2

/-- Folding queue steps over a panicked (`none`) state stays panicked. -/
theorem pfFold_none (ops : List PfOp) :
    ops.foldl (fun ost op => ost.bind fun st => pfStep st op) none = none := by
  induction ops with
  | nil => rfl
  | cons op ops ih => simpa [List.foldl] using ih

/-- The invariant holds after folding from any invariant state. -/
theorem pfFold_PfInv (ops : List PfOp)
    (st0 st : passfd_t × List Int × List (Option Int)) (h0 : PfInv st0)
    (h : ops.foldl (fun ost op => ost.bind fun st => pfStep st op) (some st0) =
      some st) : PfInv st := by
  induction ops generalizing st0 with
  | nil =>
      simp only [List.foldl, Option.some.injEq] at h
      subst h
      exact h0
  | cons op ops ih =>
      simp only [List.foldl] at h
      have hred : (some st0).bind (fun s => pfStep s op) = pfStep st0 op := rfl
      rw [hred] at h
      cases hs : pfStep st0 op with
      | none =>
          rw [hs, pfFold_none] at h
          exact absurd h (by simp)
      | some st1 =>
          rw [hs] at h
          exact ih st1 (pfStep_PfInv h0 hs) h

/-- The zero-value queue with empty history satisfies the invariant. -/
theorem PfInv_zero : PfInv (pfZero, [], []) := by
  refine ⟨le_refl _, by decide, rfl, rfl, by simp, fun _ => ⟨rfl, rfl⟩, ?_⟩
  intro l hl
  simp [pfZero] at hl

/-- C6 --- the pass queue has capacity 10: from the zero value, ten adds
succeed and the eleventh fails (only fds 0..9 enter the history); and over
every interleaving of `add` and `take`, the sequence of values handed out by
`take` is exactly the `some`-image of the prefix of the successfully added
fds — FIFO order, no loss, no reordering. -/
theorem passfd_cap10_fifo :
    pfRun [PfOp.add 0, .add 1, .add 2, .add 3, .add 4, .add 5, .add 6,
      .add 7, .add 8, .add 9, .add 10] =
      some (⟨some [some 0, some 1, some 2, some 3, some 4, some 5, some 6,
        some 7, some 8, some 9], 10, 0⟩,
        [0, 1, 2, 3, 4, 5, 6, 7, 8, 9], []) ∧
    (∀ ops pf adds takes, pfRun ops = some (pf, adds, takes) →
      takes = (adds.take takes.length).map some) := by
  constructor
  · decide
  · intro ops pf adds takes h
    obtain ⟨-, -, -, hc4, hc5, -⟩ := pfFold_PfInv ops _ _ PfInv_zero h
    rw [← hc4]
    exact hc5

/-- Witness for `passfd_cap10_fifo` on a one-add, one-take run. -/
theorem passfd_cap10_fifo_witness :
    pfRun [PfOp.add 5, PfOp.take] =
      some (⟨some [some 5, none, none, none, none, none, none, none, none,
        none], 1, 1⟩, [5], [some 5]) ∧
    ([some 5] : List (Option Int)) = (([5] : List Int).take 1).map some :=
  ⟨by decide, passfd_cap10_fifo.2 [PfOp.add 5, PfOp.take]
    ⟨some [some 5, none, none, none, none, none, none, none, none, none],
      1, 1⟩ [5] [some 5] (by decide)⟩

/-! ## Console daemon input buffer (claims C7, C8) -/

/-- `addprint(c)` from `kbd_daemon`: drop the byte (with a message) when the
buffer already holds more than 1024 bytes, otherwise append it.  The `'\'`
debug key then panics deliberately (`none`); `'@'` and `'%'` are reserved
no-op hooks. -/
def addprint (c : UInt8) (data : Buf) : Option Buf :=
  if 1024 < data.length then some data
  else
    let d := data ++ [c]
    if c = 92 then none
    else some d

/-- The buffer contents after the daemon appends a sequence of translated
input bytes, starting from the empty buffer. -/
def kbdData (cs : List UInt8) : Option Buf :=
  cs.foldl (fun od c => od.bind (addprint c)) (some [])

/-- Folding `addprint` over non-backslash bytes appends them all while the
1024-byte check keeps passing. -/
theorem kbdFold_append (cs : List UInt8) (d : Buf)
    (hlen : d.length + cs.length ≤ 1025) (hc : ∀ c ∈ cs, c ≠ 92) :
    cs.foldl (fun od c => od.bind (addprint c)) (some d) = some (d ++ cs) := by
  induction cs generalizing d with
  | nil => simp
  | cons c cs ih =>
      have hstep : addprint c d = some (d ++ [c]) := by
        unfold addprint
        rw [if_neg (by simp at hlen ⊢; omega), if_neg (hc c (by simp))]
      calc (c :: cs).foldl (fun od c => od.bind (addprint c)) (some d)
          = cs.foldl (fun od c => od.bind (addprint c)) (addprint c d) := rfl
        _ = cs.foldl (fun od c => od.bind (addprint c)) (some (d ++ [c])) := by
            rw [hstep]
        _ = some ((d ++ [c]) ++ cs) := by
            refine ih (d ++ [c]) ?_ (fun x hx => hc x (by simp [hx]))
            simp at hlen ⊢
            omega
        _ = some (d ++ c :: cs) := by simp

/-- C7 counterexample --- 1025 ordinary bytes are all retained: the byte
arriving when the buffer holds 1024 bytes is appended, not dropped, so the
buffer reaches 1025 bytes, refuting "the buffer length stays ≤ 1024". -/
theorem kbd_buffer_reaches_1025 :
    (kbdData (List.replicate 1025 97)).map List.length = some 1025 := by
  unfold kbdData
  rw [kbdFold_append (List.replicate 1025 97) []
    (by simp only [List.length_nil, List.length_replicate]; omega)
    (fun c hc => by
      rw [List.eq_of_mem_replicate hc]
      decide)]
  simp only [List.nil_append, Option.map_some', List.length_replicate]

/-- C7 amended --- the `len(data) > 1024` guard drops a byte only once the
buffer holds more than 1024 bytes, so over every sequence of `addprint`
calls from the empty buffer the length stays ≤ 1025 (not ≤ 1024). -/
theorem kbd_buffer_le_1025 (cs : List UInt8) (d : Buf)
    (h : kbdData cs = some d) : d.length ≤ 1025 := by
  suffices hgen : ∀ (cs : List UInt8) (d0 d : Buf), d0.length ≤ 1025 →
      List.foldl (fun od c => od.bind (addprint c)) (some d0) cs = some d →
      d.length ≤ 1025 by
    exact hgen cs [] d (by simp) h
  intro cs
  induction cs with
  | nil =>
      intro d0 d h0 h
      simp only [List.foldl, Option.some.injEq] at h
      subst h
      exact h0
  | cons c cs ih =>
      intro d0 d h0 h
      have hred : (c :: cs).foldl (fun od c => od.bind (addprint c)) (some d0) =
          cs.foldl (fun od c => od.bind (addprint c)) (addprint c d0) := rfl
      rw [hred] at h
      cases hstep : addprint c d0 with
      | none =>
          rw [hstep] at h
          have : ∀ (ops : List UInt8), List.foldl
              (fun od c => od.bind (addprint c)) (none : Option Buf) ops =
              none := by
            intro ops
            induction ops with
            | nil => rfl
            | cons o ops iho => simpa [List.foldl] using iho
          rw [this] at h
          exact absurd h (by simp)
      | some d1 =>
          rw [hstep] at h
          refine ih d1 d ?_ h
          unfold addprint at hstep
          split_ifs at hstep with h1 h2
          · injection hstep with hstep
            subst hstep
            exact h0
          · injection hstep with hstep
            subst hstep
            simp only [List.length_append, List.length_cons, List.length_nil]
            omega

/-- Witness for `kbd_buffer_le_1025` on a one-byte input. -/
theorem kbd_buffer_le_1025_witness :
    kbdData [97] = some [97] ∧ ([97] : Buf).length ≤ 1025 :=
  ⟨by decide, kbd_buffer_le_1025 [97] [97] (by decide)⟩

/-- Servicing a read request in `kbd_daemon`: clamp the requested size `l`
to the buffered length, reply with `data[0:l]`, and keep `data[l:]`
(a negative request would make the slice expression panic). -/
def kbd_read (l : Int) (data : Buf) : Option (Buf × Buf) :=
  let lcl := if (data.length : Int) < l then (data.length : Int) else l
  if lcl < 0 then none
  else some (data.take lcl.toNat, data.drop lcl.toNat)

/-- C8 --- a read request of non-negative size `l` is answered with exactly
the first `min l (len data)` buffered bytes — never more than `l` — and
precisely those bytes leave the front of the buffer. -/
theorem kbd_read_prefix (l : Int) (data : Buf) (h : 0 ≤ l) :
    ∃ s rest, kbd_read l data = some (s, rest) ∧
      s.length = min l.toNat data.length ∧ s <+: data ∧
      rest = data.drop s.length ∧ s ++ rest = data := by
  unfold kbd_read
  by_cases hlt : (data.length : Int) < l
  · rw [if_pos hlt, if_neg (by omega)]
    refine ⟨data.take (data.length : Int).toNat,
      data.drop (data.length : Int).toNat,
      rfl, ?_, List.take_prefix _ _, ?_, List.take_append_drop _ _⟩
    · simp [List.length_take]
      omega
    · simp [List.length_take]
  · rw [if_neg hlt, if_neg (by omega)]
    refine ⟨data.take l.toNat, data.drop l.toNat, rfl, ?_,
      List.take_prefix _ _, ?_, List.take_append_drop _ _⟩
    · simp [List.length_take]
    · simp [List.length_take]
      congr 1
      omega

/-- Witness for `kbd_read_prefix`: reading 2 of 3 buffered bytes. -/
theorem kbd_read_prefix_witness :
    (0 : Int) ≤ 2 ∧
    ∃ s rest, kbd_read 2 [104, 105, 10] = some (s, rest) ∧
      s.length = min (2 : Int).toNat ([104, 105, 10] : Buf).length ∧
      s <+: ([104, 105, 10] : Buf) ∧
      rest = ([104, 105, 10] : Buf).drop s.length ∧
      s ++ rest = [104, 105, 10] :=
  ⟨by decide, kbd_read_prefix 2 [104, 105, 10] (by decide)⟩
